import Mathlib

/-!
Shallow embedding of `src/Set_4/SHA-1_keyed_MAC.py`: a streaming SHA-1
implementation (class `Sha1Hash`), a register-injection hook
(`set_registers`), and a secret-prefix keyed MAC built on top of it
(`sha1`, `HMAC_SHA1`, `check_mac`).

Bytes are modelled as `List Nat` (each element a byte value); Python's
unbounded integers are `Nat`, with the source's explicit `& 0xffffffff`
masks kept as `&&&`.  The engine state `Sha1Hash` carries the three
instance attributes `_h`, `_unprocessed`, `_message_byte_length`.
`BytesIO` input in `update` is modelled by the list of bytes it yields.
-/

set_option maxRecDepth 4000

/-- `Sha1Hash._left_rotate`: left rotate a 32-bit integer n by b bits. -/
def leftRotate (n b : Nat) : Nat :=
  ((n <<< b) ||| (n >>> (32 - b))) &&& 0xffffffff

/-- The five digest registers `h0 .. h4` (the tuple `self._h`). -/
structure Regs where
  h0 : Nat
  h1 : Nat
  h2 : Nat
  h3 : Nat
  h4 : Nat
deriving DecidableEq, Repr

/-- `struct.unpack('>I', four bytes)`: big-endian 32-bit word from 4 bytes. -/
def wordBE (b0 b1 b2 b3 : Nat) : Nat :=
  ((b0 * 256 + b1) * 256 + b2) * 256 + b3

/-- The first loop of `_process_chunk`: break the 64-byte chunk into
sixteen 4-byte big-endian words `w[0..15]`. -/
def chunkWords (chunk : List Nat) : List Nat :=
  (List.range 16).map fun i =>
    wordBE (chunk.getD (i * 4) 0) (chunk.getD (i * 4 + 1) 0)
      (chunk.getD (i * 4 + 2) 0) (chunk.getD (i * 4 + 3) 0)

/-- One iteration of the schedule-extension loop of `_process_chunk`:
append `rotl1 (w[i-3] ^ w[i-8] ^ w[i-14] ^ w[i-16])` at position `i = w.length`. -/
def extendW (w : List Nat) : List Nat :=
  w ++ [leftRotate
    (w.getD (w.length - 3) 0 ^^^ w.getD (w.length - 8) 0 ^^^
      w.getD (w.length - 14) 0 ^^^ w.getD (w.length - 16) 0) 1]

/-- The 80-word message schedule of `_process_chunk`
(`for i in range(16, 80)` extension loop). -/
def schedule (chunk : List Nat) : List Nat :=
  (List.range 64).foldl (fun w _ => extendW w) (chunkWords chunk)

/-- One round `i` of the 80-round loop of `_process_chunk`, acting on the
working variables `(a, b, c, d, e)`; the `if/elif` chain selecting `f` and
`k` is embedded as nested conditionals. -/
def roundStep (w : List Nat) (s : Nat × Nat × Nat × Nat × Nat) (i : Nat) :
    Nat × Nat × Nat × Nat × Nat :=
  match s with
  | (a, b, c, d, e) =>
    let f :=
      if i ≤ 19 then d ^^^ (b &&& (c ^^^ d))
      else if i ≤ 39 then b ^^^ c ^^^ d
      else if i ≤ 59 then (b &&& c) ||| (b &&& d) ||| (c &&& d)
      else b ^^^ c ^^^ d
    let k :=
      if i ≤ 19 then 0x5A827999
      else if i ≤ 39 then 0x6ED9EBA1
      else if i ≤ 59 then 0x8F1BBCDC
      else 0xCA62C1D6
    ((leftRotate a 5 + f + e + k + w.getD i 0) &&& 0xffffffff,
      a, leftRotate b 30, c, d)

/-- `Sha1Hash._process_chunk` (the computation after its length assert):
process one 64-byte chunk and return the new digest variables. -/
def processChunk (chunk : List Nat) (h : Regs) : Regs :=
  let w := schedule chunk
  match (List.range 80).foldl (roundStep w) (h.h0, h.h1, h.h2, h.h3, h.h4) with
  | (a, b, c, d, e) =>
    ⟨(h.h0 + a) &&& 0xffffffff, (h.h1 + b) &&& 0xffffffff,
      (h.h2 + c) &&& 0xffffffff, (h.h3 + d) &&& 0xffffffff,
      (h.h4 + e) &&& 0xffffffff⟩

/-- The mutable state of a `Sha1Hash` instance: `_h`, `_unprocessed`,
`_message_byte_length`. -/
structure Sha1Hash where
  h : Regs
  unprocessed : List Nat
  messageByteLength : Nat
deriving DecidableEq, Repr

/-- `Sha1Hash.__init__`: initial digest variables, empty buffer, zero count. -/
def initHash : Sha1Hash :=
  ⟨⟨0x67452301, 0xEFCDAB89, 0x98BADCFE, 0x10325476, 0xC3D2E1F0⟩, [], 0⟩

/-- The `while len(chunk) == 64` loop of `Sha1Hash.update`, acting on the
whole byte stream `t = self._unprocessed ++ data` still to consume: each
full 64-byte chunk is folded through `_process_chunk` and counted, the
final short chunk becomes the new `_unprocessed`.  The first argument only
bounds the number of iterations (keeping the recursion structural);
`update` passes the stream length, which always suffices since every
iteration consumes 64 bytes. -/
def updateLoop : Nat → Regs → Nat → List Nat → Sha1Hash
  | 0, h, mbl, t => ⟨h, t, mbl⟩
  | fuel + 1, h, mbl, t =>
    if t.length < 64 then ⟨h, t, mbl⟩
    else updateLoop fuel (processChunk (t.take 64) h) (mbl + 64) (t.drop 64)

/-- `Sha1Hash.update` on a byte-sequence argument. -/
def Sha1Hash.update (s : Sha1Hash) (data : List Nat) : Sha1Hash :=
  updateLoop (s.unprocessed ++ data).length s.h s.messageByteLength
    (s.unprocessed ++ data)

/-- The zero-byte count of `_produce_digest`:
`(56 - (message_byte_length + 1) % 64) % 64`, with Python's `%` on the
possibly negative left operand embedded via `Int` (Python `%` with a
positive modulus agrees with `Int.emod`). -/
def padZeroCount (len : Nat) : Nat :=
  ((56 - ((len : Int) + 1) % 64) % 64).toNat

/-- `struct.pack('>Q', n)`: 8 bytes, big-endian (for `n < 2^64`). -/
def pack64 (n : Nat) : List Nat :=
  [n / 2 ^ 56 % 256, n / 2 ^ 48 % 256, n / 2 ^ 40 % 256, n / 2 ^ 32 % 256,
    n / 2 ^ 24 % 256, n / 2 ^ 16 % 256, n / 2 ^ 8 % 256, n % 256]

/-- The padding `_produce_digest` appends after the buffered tail:
`0x80`, then zero bytes, then the total bit length as 64-bit big-endian;
`len` is the total message byte length `message_byte_length`. -/
def mdPad (len : Nat) : List Nat :=
  0x80 :: (List.replicate (padZeroCount len) 0 ++ pack64 (len * 8))

/-- The padded message built inside `_produce_digest`:
`self._unprocessed + b'\x80' + zeros + pack('>Q', bit_length)`. -/
def paddedMessage (s : Sha1Hash) : List Nat :=
  s.unprocessed ++ mdPad (s.messageByteLength + s.unprocessed.length)

/-- `Sha1Hash._produce_digest`: pad, then process the final one or two
64-byte chunks starting from the current registers (no state mutation). -/
def produceDigest (s : Sha1Hash) : Regs :=
  let message := paddedMessage s
  let h := processChunk (message.take 64) s.h
  if message.length = 64 then h else processChunk (message.drop 64) h

/-- `struct.pack('>I', n)`: 4 bytes, big-endian (for `n < 2^32`). -/
def pack32 (n : Nat) : List Nat :=
  [n / 2 ^ 24 % 256, n / 2 ^ 16 % 256, n / 2 ^ 8 % 256, n % 256]

/-- `Sha1Hash.digest`: the five finalized registers packed big-endian. -/
def Sha1Hash.digest (s : Sha1Hash) : List Nat :=
  let r := produceDigest s
  pack32 r.h0 ++ pack32 r.h1 ++ pack32 r.h2 ++ pack32 r.h3 ++ pack32 r.h4

/-- One register formatted as `%08x`: lowercase hex, zero-padded to 8. -/
def hex8 (n : Nat) : String :=
  let ds := Nat.toDigits 16 n
  String.mk (List.replicate (8 - ds.length) (Nat.digitChar 0) ++ ds)

/-- `Sha1Hash.hexdigest`: `'%08x%08x%08x%08x%08x' % registers`. -/
def Sha1Hash.hexdigest (s : Sha1Hash) : String :=
  let r := produceDigest s
  hex8 r.h0 ++ hex8 r.h1 ++ hex8 r.h2 ++ hex8 r.h3 ++ hex8 r.h4

/-- The method call `s.hexdigest()` as an explicit state transformer:
`_produce_digest` and `hexdigest` read `_h`, `_unprocessed` and
`_message_byte_length` but assign to none of them, so the post-state is
the unchanged receiver. -/
def hexdigestCall (s : Sha1Hash) : String × Sha1Hash :=
  (s.hexdigest, s)

/-- The method call `s.digest()` as an explicit state transformer
(likewise mutation-free in the source). -/
def digestCall (s : Sha1Hash) : List Nat × Sha1Hash :=
  (s.digest, s)

/-- `int.from_bytes(l, "big")`. -/
def intFromBytesBE (l : List Nat) : Nat :=
  l.foldl (fun acc b => acc * 256 + b) 0

/-- `Sha1Hash.set_registers`: overwrite `_h` with the big-endian values of
the five byte strings; no validation, no other field is touched. -/
def setRegisters (s : Sha1Hash) (b0 b1 b2 b3 b4 : List Nat) : Sha1Hash :=
  ⟨⟨intFromBytesBE b0, intFromBytesBE b1, intFromBytesBE b2,
      intFromBytesBE b3, intFromBytesBE b4⟩,
    s.unprocessed, s.messageByteLength⟩

/-- `sha1(data) = Sha1Hash().update(data).hexdigest()`. -/
def sha1 (data : List Nat) : String :=
  (initHash.update data).hexdigest

/-- `HMAC_SHA1(message) = sha1(key + message)`; the process-global random
16-byte `key` is passed explicitly. -/
def HMAC_SHA1 (key message : List Nat) : String :=
  sha1 (key ++ message)

/-- `check_mac(message, mac) = (HMAC_SHA1(message) == mac)`. -/
def check_mac (key message : List Nat) (mac : String) : Bool :=
  HMAC_SHA1 key message == mac

/-!
Spec-side compression function, written from the spec's own description
(§4.2 of the spec): a `round_constants`-style selector returning `(f, k)`
per round range, working-variable updates `mod 2^32`, and the final
word-wise addition `mod 2^32`.  Claim C4 compares it with `processChunk`.
-/

/-- Modelled from the spec: `round_constants(i) -> (f, k)` selected by the
four ranges `[0,19]`, `[20,39]`, `[40,59]`, `[60,79]`. -/
def roundConstants (i b c d : Nat) : Nat × Nat :=
  if i ≤ 19 then (d ^^^ (b &&& (c ^^^ d)), 0x5A827999)
  else if i ≤ 39 then (b ^^^ c ^^^ d, 0x6ED9EBA1)
  else if i ≤ 59 then ((b &&& c) ||| (b &&& d) ||| (c &&& d), 0x8F1BBCDC)
  else (b ^^^ c ^^^ d, 0xCA62C1D6)

/-- Modelled from the spec: one round of the compression function,
`new_a = (rotate_left(a,5) + f + e + k + w[i]) mod 2^32`, then
`(a,b,c,d,e) <- (new_a, a, rotate_left(b,30), c, d)`. -/
def specRoundStep (w : List Nat) (s : Nat × Nat × Nat × Nat × Nat) (i : Nat) :
    Nat × Nat × Nat × Nat × Nat :=
  match s with
  | (a, b, c, d, e) =>
    let fk := roundConstants i b c d
    ((leftRotate a 5 + fk.1 + e + fk.2 + w.getD i 0) % 2 ^ 32,
      a, leftRotate b 30, c, d)

/-- Modelled from the spec: the whole compression function — 80 rounds over
the message schedule, then `(h0+a, h1+b, h2+c, h3+d, h4+e)` word-wise
`mod 2^32`. -/
def specCompress (chunk : List Nat) (h : Regs) : Regs :=
  let w := schedule chunk
  match (List.range 80).foldl (specRoundStep w) (h.h0, h.h1, h.h2, h.h3, h.h4) with
  | (a, b, c, d, e) =>
    ⟨(h.h0 + a) % 2 ^ 32, (h.h1 + b) % 2 ^ 32, (h.h2 + c) % 2 ^ 32,
      (h.h3 + d) % 2 ^ 32, (h.h4 + e) % 2 ^ 32⟩

/-!
Checked variants threading the `assert len(chunk) == 64` of
`_process_chunk` through `update` and `_produce_digest` as `Option`
(`none` = the assertion fires).  Used for claim C10.
-/

/-- `_process_chunk` including its `assert len(chunk) == 64`. -/
def processChunkChecked (chunk : List Nat) (h : Regs) : Option Regs :=
  if chunk.length = 64 then some (processChunk chunk h) else none

/-- `updateLoop` with the chunk-length assertion kept. -/
def updateLoopChecked : Nat → Regs → Nat → List Nat → Option Sha1Hash
  | 0, h, mbl, t => some ⟨h, t, mbl⟩
  | fuel + 1, h, mbl, t =>
    if t.length < 64 then some ⟨h, t, mbl⟩
    else
      match processChunkChecked (t.take 64) h with
      | none => none
      | some h2 => updateLoopChecked fuel h2 (mbl + 64) (t.drop 64)

/-- `Sha1Hash.update` with the chunk-length assertion kept. -/
def updateChecked (s : Sha1Hash) (data : List Nat) : Option Sha1Hash :=
  updateLoopChecked (s.unprocessed ++ data).length s.h s.messageByteLength
    (s.unprocessed ++ data)

/-- `_produce_digest` with the chunk-length assertion kept. -/
def produceDigestChecked (s : Sha1Hash) : Option Regs :=
  let message := paddedMessage s
  match processChunkChecked (message.take 64) s.h with
  | none => none
  | some h =>
    if message.length = 64 then some h
    else processChunkChecked (message.drop 64) h

/-- Process the first `n` consecutive 64-byte blocks of a byte sequence,
in order, folding each through `_process_chunk`. -/
def processBlocksN : Nat → Regs → List Nat → Regs
  | 0, h, _ => h
  | n + 1, h, t => processBlocksN n (processChunk (t.take 64) h) (t.drop 64)

/-- Process a byte sequence as consecutive 64-byte blocks, in order,
folding each through `_process_chunk` (meaningful when the length is a
multiple of 64). -/
def processBlocks (h : Regs) (t : List Nat) : Regs :=
  processBlocksN (t.length / 64) h t

/-- Engine states reachable from a fresh `Sha1Hash()` by any sequence of
`update`, `digest` and `hexdigest` calls (the two finalizers leave the
state of the receiver unchanged). -/
inductive Reachable : Sha1Hash → Prop where
  | base : Reachable initHash
  | step : ∀ {s : Sha1Hash}, Reachable s → ∀ d, Reachable (s.update d)
  | hexFin : ∀ {s : Sha1Hash}, Reachable s → Reachable (hexdigestCall s).2
  | binFin : ∀ {s : Sha1Hash}, Reachable s → Reachable (digestCall s).2

/-! Structural lemmas about the update loop and block processing. -/

theorem updateLoop_low (fuel : Nat) (h : Regs) (mbl : Nat) (t : List Nat)
    (hl : t.length < 64) : updateLoop fuel h mbl t = ⟨h, t, mbl⟩ := by
  cases fuel with
  | zero => rfl
  | succ fuel => simp [updateLoop, hl]

theorem updateLoop_high (fuel : Nat) (h : Regs) (mbl : Nat) (t : List Nat)
    (hl : ¬ t.length < 64) :
    updateLoop (fuel + 1) h mbl t =
      updateLoop fuel (processChunk (t.take 64) h) (mbl + 64) (t.drop 64) := by
  simp [updateLoop, hl]

theorem processBlocks_nil (h : Regs) : processBlocks h [] = h := rfl

theorem processBlocks_cons (h : Regs) (t : List Nat) (hne : 64 ≤ t.length) :
    processBlocks h t = processBlocks (processChunk (t.take 64) h) (t.drop 64) := by
  unfold processBlocks
  have hq : t.length / 64 = (t.drop 64).length / 64 + 1 := by
    simp only [List.length_drop]
    omega
  rw [hq]
  rfl

theorem updateLoop_spec :
    ∀ (fuel : Nat) (t : List Nat), t.length ≤ fuel → ∀ (h : Regs) (mbl : Nat),
      updateLoop fuel h mbl t =
        ⟨processBlocks h (t.take (64 * (t.length / 64))),
          t.drop (64 * (t.length / 64)), mbl + 64 * (t.length / 64)⟩ := by
  intro fuel
  induction fuel with
  | zero =>
    intro t ht h mbl
    have hq : 64 * (t.length / 64) = 0 := by omega
    rw [updateLoop_low 0 h mbl t (by omega), hq]
    simp [processBlocks_nil]
  | succ fuel ih =>
    intro t ht h mbl
    by_cases hl : t.length < 64
    · have hq : 64 * (t.length / 64) = 0 := by omega
      rw [updateLoop_low (fuel + 1) h mbl t hl, hq]
      simp [processBlocks_nil]
    · rw [updateLoop_high fuel h mbl t hl]
      rw [ih (t.drop 64) (by simp only [List.length_drop]; omega)]
      have hq : 64 * ((t.drop 64).length / 64) = 64 * (t.length / 64) - 64 := by
        simp only [List.length_drop]
        omega
      have hq2 : 64 ≤ 64 * (t.length / 64) := by omega
      have hq3 : 64 * (t.length / 64) ≤ t.length := by omega
      congr 1
      · symm
        rw [processBlocks_cons h (t.take (64 * (t.length / 64)))
          (by simp only [List.length_take]; omega)]
        rw [List.take_take, Nat.min_eq_left hq2, List.drop_take, hq]
      · rw [List.drop_drop, hq]
        congr 1
        omega
      · rw [hq]
        omega

/-- `update`, characterized: the registers fold over the full 64-byte
blocks of `unprocessed ++ data`, the remainder is buffered, and the byte
count advances by 64 per processed block. -/
theorem update_spec (s : Sha1Hash) (d : List Nat) :
    s.update d =
      ⟨processBlocks s.h
          ((s.unprocessed ++ d).take (64 * ((s.unprocessed ++ d).length / 64))),
        (s.unprocessed ++ d).drop (64 * ((s.unprocessed ++ d).length / 64)),
        s.messageByteLength + 64 * ((s.unprocessed ++ d).length / 64)⟩ :=
  updateLoop_spec (s.unprocessed ++ d).length _ (Nat.le_refl _) s.h s.messageByteLength

theorem processBlocks_append :
    ∀ (n : Nat) (a : List Nat), a.length ≤ n → a.length % 64 = 0 →
      ∀ (h : Regs) (b : List Nat),
        processBlocks h (a ++ b) = processBlocks (processBlocks h a) b := by
  intro n
  induction n with
  | zero =>
    intro a ha _ h b
    have : a = [] := List.eq_nil_of_length_eq_zero (by omega)
    subst this
    rw [processBlocks_nil]
    rfl
  | succ n ih =>
    intro a ha hmod h b
    by_cases h0 : a.length = 0
    · have : a = [] := List.eq_nil_of_length_eq_zero h0
      subst this
      rw [processBlocks_nil]
      rfl
    · have h64 : 64 ≤ a.length := by omega
      rw [processBlocks_cons h (a ++ b)
        (by simp only [List.length_append]; omega)]
      rw [List.take_append_of_le_length (by omega),
        List.drop_append_of_le_length (by omega)]
      rw [ih (a.drop 64) (by simp only [List.length_drop]; omega)
        (by simp only [List.length_drop]; omega)]
      rw [processBlocks_cons h a h64]

theorem update_update (s : Sha1Hash) (a b : List Nat) :
    (s.update a).update b = s.update (a ++ b) := by
  rw [update_spec s a]
  rw [update_spec _ b, update_spec s (a ++ b)]
  dsimp only
  have e1 : s.unprocessed ++ (a ++ b) = (s.unprocessed ++ a) ++ b :=
    (List.append_assoc _ _ _).symm
  set t := s.unprocessed ++ a with ht
  set q1 := 64 * (t.length / 64) with hq1
  have hq1le : q1 ≤ t.length := by omega
  have hq1mod : q1 % 64 = 0 := by omega
  set u := t.drop q1 with hu
  have hulen : u.length = t.length - q1 := by
    rw [hu, List.length_drop]
  set q2 := 64 * ((u ++ b).length / 64) with hq2
  set Q := 64 * (((t ++ b)).length / 64) with hQ
  have hQsplit : Q = q1 + q2 := by
    rw [hQ, hq2, hq1]
    simp only [List.length_append, hulen]
    omega
  simp only [Sha1Hash.mk.injEq]
  refine ⟨?_, ?_, ?_⟩
  · rw [e1, ← hQ, hQsplit]
    have htake : (t ++ b).take (q1 + q2) = t.take q1 ++ (u ++ b).take q2 := by
      rw [List.take_add]
      congr 1
      · exact List.take_append_of_le_length hq1le
      · congr 1
        exact List.drop_append_of_le_length hq1le
    rw [htake]
    rw [processBlocks_append (t.take q1).length _ (Nat.le_refl _)
      (by simp only [List.length_take]; omega)]
  · rw [e1, ← hQ, hQsplit]
    rw [← List.drop_drop, List.drop_append_of_le_length hq1le]
  · rw [e1, ← hQ, hQsplit]
    omega

/-! Padding-length facts and the reachable-state invariant. -/

theorem padZeroCount_spec (l : Nat) :
    (l + 9 + padZeroCount l) % 64 = 0 ∧ padZeroCount l < 64 := by
  unfold padZeroCount
  omega

theorem mdPad_length (l : Nat) : (mdPad l).length = 9 + padZeroCount l := by
  simp [mdPad, pack64, List.length_replicate]
  omega

theorem paddedMessage_length (s : Sha1Hash) (hu : s.unprocessed.length < 64)
    (hm : s.messageByteLength % 64 = 0) :
    (paddedMessage s).length = 64 ∨ (paddedMessage s).length = 128 := by
  have hz := padZeroCount_spec (s.messageByteLength + s.unprocessed.length)
  have hlen : (paddedMessage s).length =
      s.unprocessed.length + (9 + padZeroCount (s.messageByteLength + s.unprocessed.length)) := by
    simp [paddedMessage, mdPad_length]
  omega

theorem produceDigest_eq_processBlocks (s : Sha1Hash)
    (hl : (paddedMessage s).length = 64 ∨ (paddedMessage s).length = 128) :
    produceDigest s = processBlocks s.h (paddedMessage s) := by
  rcases hl with hl | hl
  · rw [produceDigest]
    rw [processBlocks_cons s.h (paddedMessage s) (by omega)]
    have hd : (paddedMessage s).drop 64 = [] := by
      apply List.eq_nil_of_length_eq_zero
      simp [List.length_drop, hl]
    simp [hl, hd, processBlocks_nil]
  · rw [produceDigest]
    rw [processBlocks_cons s.h (paddedMessage s) (by omega)]
    rw [processBlocks_cons (processChunk ((paddedMessage s).take 64) s.h)
      ((paddedMessage s).drop 64) (by simp [List.length_drop, hl])]
    have h1 : ((paddedMessage s).drop 64).take 64 = (paddedMessage s).drop 64 := by
      apply List.take_of_length_le
      simp [List.length_drop, hl]
    have h2 : ((paddedMessage s).drop 64).drop 64 = [] := by
      apply List.eq_nil_of_length_eq_zero
      simp [List.length_drop, hl]
    simp [hl, h1, h2, processBlocks_nil]

theorem reachable_inv (s : Sha1Hash) (hr : Reachable s) :
    s.unprocessed.length < 64 ∧ s.messageByteLength % 64 = 0 := by
  induction hr with
  | base => simp [initHash]
  | step hr d ih =>
    rename_i s'
    rw [update_spec]
    dsimp only
    constructor
    · simp only [List.length_drop]
      omega
    · omega
  | hexFin hr ih => exact ih
  | binFin hr ih => exact ih

/-! Register bounds, byte-packing round trips, and the one-pass digest bridge. -/

theorem and_mask_eq_mod (x : Nat) : x &&& 0xffffffff = x % 2 ^ 32 := by
  have h := Nat.and_pow_two_sub_one_eq_mod x 32
  norm_num at h ⊢
  exact h

theorem and_mask_lt (x : Nat) : x &&& 0xffffffff < 2 ^ 32 := by
  rw [and_mask_eq_mod]
  exact Nat.mod_lt _ (by norm_num)

theorem processChunk_lt (chunk : List Nat) (h : Regs) :
    (processChunk chunk h).h0 < 2 ^ 32 ∧ (processChunk chunk h).h1 < 2 ^ 32 ∧
      (processChunk chunk h).h2 < 2 ^ 32 ∧ (processChunk chunk h).h3 < 2 ^ 32 ∧
      (processChunk chunk h).h4 < 2 ^ 32 := by
  rcases hE : (List.range 80).foldl (roundStep (schedule chunk))
      (h.h0, h.h1, h.h2, h.h3, h.h4) with ⟨a, b, c, d, e⟩
  simp only [processChunk, hE]
  exact ⟨and_mask_lt _, and_mask_lt _, and_mask_lt _, and_mask_lt _, and_mask_lt _⟩

theorem produceDigest_lt (s : Sha1Hash) :
    (produceDigest s).h0 < 2 ^ 32 ∧ (produceDigest s).h1 < 2 ^ 32 ∧
      (produceDigest s).h2 < 2 ^ 32 ∧ (produceDigest s).h3 < 2 ^ 32 ∧
      (produceDigest s).h4 < 2 ^ 32 := by
  rw [produceDigest]
  split
  · exact processChunk_lt _ _
  · exact processChunk_lt _ _

theorem intFromBytesBE_pack32 (x : Nat) (hx : x < 2 ^ 32) :
    intFromBytesBE (pack32 x) = x := by
  simp only [intFromBytesBE, pack32, List.foldl]
  norm_num
  omega

theorem len_mdPad_align (l : Nat) : (l + (mdPad l).length) % 64 = 0 := by
  rw [mdPad_length]
  have := padZeroCount_spec l
  omega

theorem update_aligned (s : Sha1Hash) (hu : s.unprocessed = [])
    (D : List Nat) (hD : D.length % 64 = 0) :
    s.update D = ⟨processBlocks s.h D, [], s.messageByteLength + D.length⟩ := by
  rw [update_spec, hu, List.nil_append]
  have hq : 64 * (D.length / 64) = D.length := by omega
  rw [hq, List.take_of_length_le (Nat.le_refl _), List.drop_of_length_le (Nat.le_refl _)]

theorem digest_one_pass (M : List Nat) :
    produceDigest (initHash.update M) =
      processBlocks initHash.h (M ++ mdPad M.length) := by
  have hs : initHash.update M =
      ⟨processBlocks initHash.h (M.take (64 * (M.length / 64))),
        M.drop (64 * (M.length / 64)), 64 * (M.length / 64)⟩ := by
    rw [update_spec]
    simp [initHash]
  have hq3 : 64 * (M.length / 64) ≤ M.length := by omega
  have hu : (initHash.update M).unprocessed.length < 64 ∧
      (initHash.update M).messageByteLength % 64 = 0 := by
    rw [hs]
    constructor
    · simp only [List.length_drop]
      omega
    · simp only
      omega
  have hpm : paddedMessage (initHash.update M) =
      M.drop (64 * (M.length / 64)) ++ mdPad M.length := by
    rw [paddedMessage, hs]
    dsimp only
    congr 2
    simp only [List.length_drop]
    omega
  rw [produceDigest_eq_processBlocks _ (paddedMessage_length _ hu.1 hu.2), hpm, hs]
  dsimp only
  rw [← processBlocks_append (M.take (64 * (M.length / 64))).length _
    (Nat.le_refl _) (by simp only [List.length_take]; omega)]
  rw [← List.append_assoc, List.take_append_drop]

/-! The compression function versus its spec description, and the checked
(assert-carrying) variants versus the plain ones. -/

theorem roundStep_eq_spec (w : List Nat) (s : Nat × Nat × Nat × Nat × Nat)
    (i : Nat) : roundStep w s i = specRoundStep w s i := by
  rcases s with ⟨a, b, c, d, e⟩
  simp only [roundStep, specRoundStep, roundConstants]
  split_ifs <;> simp [and_mask_eq_mod]

theorem processChunk_eq_spec (chunk : List Nat) (h : Regs) :
    processChunk chunk h = specCompress chunk h := by
  have hfold : (List.range 80).foldl (roundStep (schedule chunk))
        (h.h0, h.h1, h.h2, h.h3, h.h4) =
      (List.range 80).foldl (specRoundStep (schedule chunk))
        (h.h0, h.h1, h.h2, h.h3, h.h4) :=
    List.foldl_ext _ _ _ (fun s i _ => roundStep_eq_spec _ s i)
  rcases hE : (List.range 80).foldl (specRoundStep (schedule chunk))
      (h.h0, h.h1, h.h2, h.h3, h.h4) with ⟨a, b, c, d, e⟩
  simp only [processChunk, specCompress, hfold, hE]
  simp [and_mask_eq_mod]

theorem updateLoopChecked_eq :
    ∀ (fuel : Nat) (h : Regs) (mbl : Nat) (t : List Nat),
      updateLoopChecked fuel h mbl t = some (updateLoop fuel h mbl t) := by
  intro fuel
  induction fuel with
  | zero => intro h mbl t; rfl
  | succ fuel ih =>
    intro h mbl t
    by_cases hl : t.length < 64
    · simp [updateLoopChecked, updateLoop, hl]
    · have htake : (t.take 64).length = 64 := by
        simp only [List.length_take]
        omega
      simp [updateLoopChecked, updateLoop, hl, processChunkChecked, htake, ih]

theorem produceDigestChecked_eq (s : Sha1Hash)
    (hl : (paddedMessage s).length = 64 ∨ (paddedMessage s).length = 128) :
    produceDigestChecked s = some (produceDigest s) := by
  rcases hl with hl | hl
  · have htake : ((paddedMessage s).take 64).length = 64 := by
      simp only [List.length_take]
      omega
    simp [produceDigestChecked, produceDigest, processChunkChecked, htake, hl]
  · have htake : ((paddedMessage s).take 64).length = 64 := by
      simp only [List.length_take]
      omega
    have hdrop : ((paddedMessage s).drop 64).length = 64 := by
      simp only [List.length_drop]
      omega
    simp [produceDigestChecked, produceDigest, processChunkChecked, htake, hdrop, hl]

/-! Claim theorems. -/

/-- C1: for every byte sequence `s` and split point `k ≤ len s`, feeding
`s` in one `update` call and finalizing gives the same digest as feeding
`s[:k]` then `s[k:]` in two `update` calls: chunking never changes the
resulting hash. -/
theorem C1_streaming_equivalence (s : List Nat) (k : Nat) (hk : k ≤ s.length) :
    (initHash.update s).hexdigest =
      ((initHash.update (s.take k)).update (s.drop k)).hexdigest := by
  rw [update_update, List.take_append_drop]

theorem C1_witness :
    1 ≤ ([10, 20, 30] : List Nat).length ∧
      (initHash.update [10, 20, 30]).hexdigest =
        ((initHash.update ([10, 20, 30].take 1)).update
          ([10, 20, 30].drop 1)).hexdigest :=
  ⟨by decide, C1_streaming_equivalence [10, 20, 30] 1 (by decide)⟩

/-- C2: for every engine state reachable by `update` calls, the padded
message built at finalization has length exactly 64 or exactly 128 bytes,
and `_produce_digest` is exactly the in-order processing of its 64-byte
blocks starting from the current registers. -/
theorem C2_padding_and_blocks (s : Sha1Hash) (hr : Reachable s) :
    ((paddedMessage s).length = 64 ∨ (paddedMessage s).length = 128) ∧
      produceDigest s = processBlocks s.h (paddedMessage s) := by
  have hi := reachable_inv s hr
  have hl := paddedMessage_length s hi.1 hi.2
  exact ⟨hl, produceDigest_eq_processBlocks s hl⟩

theorem C2_witness :
    Reachable (initHash.update [1, 2, 3]) ∧
      (((paddedMessage (initHash.update [1, 2, 3])).length = 64 ∨
          (paddedMessage (initHash.update [1, 2, 3])).length = 128) ∧
        produceDigest (initHash.update [1, 2, 3]) =
          processBlocks (initHash.update [1, 2, 3]).h
            (paddedMessage (initHash.update [1, 2, 3]))) :=
  ⟨Reachable.step Reachable.base [1, 2, 3],
    C2_padding_and_blocks _ (Reachable.step Reachable.base [1, 2, 3])⟩

/-- C3: `digest`/`hexdigest` leave the engine state unchanged; calling
`hexdigest` twice yields identical output; and an `update` after a
finalize call still yields the digest of all data fed contiguously. -/
theorem C3_finalize_frame (a b : List Nat) :
    (hexdigestCall (initHash.update a)).2 = initHash.update a ∧
      (digestCall (initHash.update a)).2 = initHash.update a ∧
      (hexdigestCall ((hexdigestCall (initHash.update a)).2)).1 =
        (hexdigestCall (initHash.update a)).1 ∧
      (((hexdigestCall (initHash.update a)).2).update b).hexdigest =
        (initHash.update (a ++ b)).hexdigest := by
  refine ⟨rfl, rfl, rfl, ?_⟩
  show ((initHash.update a).update b).hexdigest = _
  rw [update_update]

/-- C4: on every 64-byte block and registers, `_process_chunk` agrees with
the spec's description of the compression function — `(f, k)` selected by
the four round ranges, the rotate-and-add recurrence mod `2^32`, and the
final word-wise addition mod `2^32` — and every output register is reduced
mod `2^32` (arithmetic wraps silently, never an error). -/
theorem C4_compression_spec (chunk : List Nat) (h : Regs) :
    processChunk chunk h = specCompress chunk h ∧
      ((processChunk chunk h).h0 < 2 ^ 32 ∧ (processChunk chunk h).h1 < 2 ^ 32 ∧
        (processChunk chunk h).h2 < 2 ^ 32 ∧ (processChunk chunk h).h3 < 2 ^ 32 ∧
        (processChunk chunk h).h4 < 2 ^ 32) :=
  ⟨processChunk_eq_spec chunk h, processChunk_lt chunk h⟩

/-- C5: the FIPS 180-1 test vectors — the empty message and `"abc"`
(bytes `0x61 0x62 0x63`) hash to the expected 40-character hex digests. -/
theorem C5_known_vectors :
    sha1 [] = "da39a3ee5e6b4b0d3255bfef95601890afd80709" ∧
      sha1 [0x61, 0x62, 0x63] = "a9993e364706816aba3e25717850c26c9cd0d89d" :=
  ⟨by decide, by decide⟩

/-- C6 counterexample: `set_registers` does NOT fail on a value whose
length is not 4 — a 3-byte first value and a 5-byte last value are both
accepted silently, each read as a big-endian integer (the 5-byte one even
exceeding `2^32`), and an ordinary state is returned. -/
theorem C6_counterexample :
    setRegisters initHash [1, 2, 3] [0, 0, 0, 4] [0, 0, 0, 5] [0, 0, 0, 6]
        [1, 2, 3, 4, 5] =
      ⟨⟨0x010203, 4, 5, 6, 0x0102030405⟩, [], 0⟩ ∧
      2 ^ 32 ≤ intFromBytesBE [1, 2, 3, 4, 5] := by
  exact ⟨by decide, by decide⟩

/-- C6 (amended): `set_registers` performs no length validation at all —
for inputs of any lengths it returns normally, overwriting each register
with the big-endian integer value of the corresponding byte string and
leaving the buffered tail and processed-byte count untouched. -/
theorem C6_no_validation (s : Sha1Hash) (b0 b1 b2 b3 b4 : List Nat) :
    setRegisters s b0 b1 b2 b3 b4 =
      ⟨⟨intFromBytesBE b0, intFromBytesBE b1, intFromBytesBE b2,
          intFromBytesBE b3, intFromBytesBE b4⟩,
        s.unprocessed, s.messageByteLength⟩ :=
  rfl

/-- C7: MAC correctness — verifying a message against its own freshly
computed tag succeeds, and `check_mac` returns true exactly when the
recomputed tag string equals the supplied tag string. -/
theorem C7_mac_correctness (key m : List Nat) (tag : String) :
    check_mac key m (HMAC_SHA1 key m) = true ∧
      (check_mac key m tag = true ↔ HMAC_SHA1 key m = tag) := by
  constructor
  · simp [check_mac]
  · simp [check_mac]

/-- C8: on every reachable state the buffered tail is shorter than 64
bytes; the processed-byte counter is a multiple of 64, never decreases
under `update`, and advances by exactly 64 per full 64-byte block folded
through `_process_chunk`. -/
theorem C8_invariants (s : Sha1Hash) (d : List Nat) (hr : Reachable s) :
    s.unprocessed.length < 64 ∧
      s.messageByteLength % 64 = 0 ∧
      (s.update d).messageByteLength =
        s.messageByteLength + 64 * ((s.unprocessed ++ d).length / 64) ∧
      s.messageByteLength ≤ (s.update d).messageByteLength ∧
      (s.update d).h =
        processBlocks s.h
          ((s.unprocessed ++ d).take (64 * ((s.unprocessed ++ d).length / 64))) := by
  have hi := reachable_inv s hr
  refine ⟨hi.1, hi.2, ?_, ?_, ?_⟩ <;> rw [update_spec] <;> dsimp only
  omega

theorem C8_witness :
    Reachable initHash ∧
      (initHash.unprocessed.length < 64 ∧
        initHash.messageByteLength % 64 = 0 ∧
        (initHash.update (List.replicate 65 7)).messageByteLength =
          initHash.messageByteLength +
            64 * ((initHash.unprocessed ++ List.replicate 65 7).length / 64) ∧
        initHash.messageByteLength ≤
          (initHash.update (List.replicate 65 7)).messageByteLength ∧
        (initHash.update (List.replicate 65 7)).h =
          processBlocks initHash.h
            ((initHash.unprocessed ++ List.replicate 65 7).take
              (64 * ((initHash.unprocessed ++ List.replicate 65 7).length / 64)))) :=
  ⟨Reachable.base, C8_invariants initHash (List.replicate 65 7) Reachable.base⟩

/-- C9: register-injection bit-exactness — injecting the five registers of
the digest of any known-length message `pre` into a fresh engine via
`set_registers` and feeding a continuation padded to account for `pre`'s
length (the suffix followed by the final padding of the whole extended
message) drives the registers to exactly the digest of
`pre ++ glue-padding ++ suf` hashed in one pass, with nothing left
buffered. -/
theorem C9_length_extension (pre suf : List Nat) :
    ((setRegisters initHash
          (pack32 (produceDigest (initHash.update pre)).h0)
          (pack32 (produceDigest (initHash.update pre)).h1)
          (pack32 (produceDigest (initHash.update pre)).h2)
          (pack32 (produceDigest (initHash.update pre)).h3)
          (pack32 (produceDigest (initHash.update pre)).h4)).update
        (suf ++ mdPad (pre.length + (mdPad pre.length).length + suf.length))).h =
      produceDigest (initHash.update ((pre ++ mdPad pre.length) ++ suf)) ∧
    ((setRegisters initHash
          (pack32 (produceDigest (initHash.update pre)).h0)
          (pack32 (produceDigest (initHash.update pre)).h1)
          (pack32 (produceDigest (initHash.update pre)).h2)
          (pack32 (produceDigest (initHash.update pre)).h3)
          (pack32 (produceDigest (initHash.update pre)).h4)).update
        (suf ++ mdPad (pre.length + (mdPad pre.length).length + suf.length))).unprocessed
      = [] := by
  set r := produceDigest (initHash.update pre) with hr
  set s0 := setRegisters initHash (pack32 r.h0) (pack32 r.h1) (pack32 r.h2)
    (pack32 r.h3) (pack32 r.h4) with hs0
  set total := pre.length + (mdPad pre.length).length + suf.length with htotal
  have hal1 : (pre.length + (mdPad pre.length).length) % 64 = 0 :=
    len_mdPad_align pre.length
  have hal2 : (total + (mdPad total).length) % 64 = 0 := len_mdPad_align total
  have halD : (suf ++ mdPad total).length % 64 = 0 := by
    simp only [List.length_append]
    omega
  have hs0h : s0.h = r := by
    obtain ⟨e0, e1, e2, e3, e4⟩ := produceDigest_lt (initHash.update pre)
    rw [hs0]
    show Regs.mk _ _ _ _ _ = r
    rw [intFromBytesBE_pack32 _ e0, intFromBytesBE_pack32 _ e1,
      intFromBytesBE_pack32 _ e2, intFromBytesBE_pack32 _ e3,
      intFromBytesBE_pack32 _ e4]
  rw [update_aligned s0 rfl _ halD]
  refine ⟨?_, rfl⟩
  dsimp only
  rw [hs0h, digest_one_pass]
  have hlen : ((pre ++ mdPad pre.length) ++ suf).length = total := by
    simp only [List.length_append]
  rw [hlen, List.append_assoc (pre ++ mdPad pre.length) suf (mdPad total)]
  rw [processBlocks_append (pre ++ mdPad pre.length).length _ (Nat.le_refl _)
    (by simp only [List.length_append]; omega)]
  rw [← digest_one_pass, ← hr]

/-- C10: for every engine state reachable through the public interface and
every byte-sequence input, the `assert len(chunk) == 64` inside
`_process_chunk` never fires: the checked variants of `update` and
`_produce_digest` succeed and agree with the unchecked ones. -/
theorem C10_assert_never_fires (s : Sha1Hash) (d : List Nat)
    (hr : Reachable s) :
    updateChecked s d = some (s.update d) ∧
      produceDigestChecked s = some (produceDigest s) := by
  have hi := reachable_inv s hr
  exact ⟨updateLoopChecked_eq _ _ _ _,
    produceDigestChecked_eq s (paddedMessage_length s hi.1 hi.2)⟩

theorem C10_witness :
    Reachable initHash ∧
      (updateChecked initHash [1, 2, 3] = some (initHash.update [1, 2, 3]) ∧
        produceDigestChecked initHash = some (produceDigest initHash)) :=
  ⟨Reachable.base, C10_assert_never_fires initHash [1, 2, 3] Reachable.base⟩
